import Mathlib

/-!
Verification of the fancy-free-walks KML-to-CSV converter (src/main.rs).

The program loads a KML document tree, walks it recursively collecting one
record per placemark, decodes each placemark (name, description, a walk
length scraped from the description with the regex `(\d+[¼½¾]*)`, point
coordinates, and a rounded distance-from-home), sorts the records by
distance with a stable sort, and exports them.

This file gives a shallow embedding of that logic.  Machine floats are
modelled as exact rationals (the fraction substitutions .25/.50/.75 and the
small decimal constants involved are all exactly representable), and the
external geodesic library call `Location::distance_to(..).meters()` is an
abstract function parameter `dist` taking the two coordinate pairs.
-/

namespace FancyFreeWalks

/-- Source constant HOME_LATITUDE = 51.097848. -/
def homeLatitude : ℚ := 51.097848

/-- Source constant HOME_LONGITUDE = -0.243409. -/
def homeLongitude : ℚ := -0.243409

/-- The conversion constant 0.006213712 that multiplies the metre distance
in `distance_miles = (distance.meters() * 0.006213712).round() / 10.0`. -/
def mileFactor : ℚ := 0.006213712

/-- Miles per metre as implied by the source constant: `mileFactor` is ten
times this value, so the rounding step is round-to-nearest-tenth-of-a-mile. -/
def milesPerMeter : ℚ := 0.0006213712

/-- Rust's `f64::round`: round half away from zero. -/
def rustRound (q : ℚ) : ℤ :=
  if 0 ≤ q then ⌊q + 1 / 2⌋ else ⌈q - 1 / 2⌉

/-- The record struct `Walk` of the source, field for field. -/
structure Walk where
  name : String
  description : String
  length : ℚ
  latitude : ℚ
  longitude : ℚ
  distance : ℚ
deriving DecidableEq

/-- The geometry attached to a placemark: either a single point (with the
KML x/y ordinates, i.e. longitude/latitude) or any other geometry kind
(line, ring, polygon, multi-geometry, element), which the source's inner
match treats uniformly with a wildcard arm. -/
inductive Geometry where
  | point (x y : ℚ)
  | otherGeom
deriving DecidableEq

/-- The fields of `kml::types::Placemark` that the source reads. -/
structure Placemark where
  name : Option String
  description : Option String
  geometry : Option Geometry
deriving DecidableEq

/-- The `kml::Kml` element variants as matched by the source:
three container variants carrying child lists, three explicitly ignored
variants, the placemark leaf, and `other` standing for every variant that
falls to the final wildcard arm. -/
inductive Kml where
  | KmlDocument (elements : List Kml)
  | Document (elements : List Kml)
  | Folder (elements : List Kml)
  | Element
  | Style
  | StyleMap
  | Placemark (p : Placemark)
  | Other

/-- Is this character one of the three vulgar-fraction glyphs of the
regex character class `[¼½¾]`? -/
def isGlyph (c : Char) : Bool :=
  c = '¼' || c = '½' || c = '¾'

/-- Scanner state machine for `captures_iter` of the regex `(\d+[¼½¾]*)`:
leftmost, non-overlapping, greedy matches.  `acc` holds the characters of
the token in progress in reverse; `inGlyphs` records whether the scan has
moved past the digit prefix into the glyph suffix (after which a digit
starts a new token). -/
def scanAux : List Char → List Char → Bool → List (List Char)
  | [], acc, _ => if acc = [] then [] else [acc.reverse]
  | c :: cs, acc, inGlyphs =>
    if acc = [] then
      if Char.isDigit c then scanAux cs [c] false
      else scanAux cs [] false
    else if inGlyphs then
      if isGlyph c then scanAux cs (c :: acc) true
      else if Char.isDigit c then acc.reverse :: scanAux cs [c] false
      else acc.reverse :: scanAux cs [] false
    else
      if Char.isDigit c then scanAux cs (c :: acc) false
      else if isGlyph c then scanAux cs (c :: acc) true
      else acc.reverse :: scanAux cs [] false

/-- All matches of the regex `(\d+[¼½¾]*)` in the given character list,
in order of occurrence. -/
def scanTokens (s : List Char) : List (List Char) :=
  scanAux s [] false

/-- Rust `String::replace` for a single-character pattern: replace every
occurrence of `pat` by `rep`. -/
def replaceAll (cs : List Char) (pat : Char) (rep : List Char) : List Char :=
  match cs with
  | [] => []
  | c :: rest =>
    if c = pat then rep ++ replaceAll rest pat rep
    else c :: replaceAll rest pat rep

/-- The chained substitution of the source, in its fixed order:
`.replace("¼", ".25").replace("½", ".50").replace("¾", ".75")`. -/
def substituteTok (t : List Char) : List Char :=
  replaceAll (replaceAll (replaceAll t '¼' (".25").data) '½' (".50").data) '¾' (".75").data

/-- Decimal value of a digit run. -/
def digitsVal (cs : List Char) : ℕ :=
  cs.foldl (fun n c => 10 * n + (c.toNat - 48)) 0

/-- `str::parse::<f64>` on the strings reachable here (digit runs with
`.25`/`.50`/`.75` fragments spliced in): an optional integer part and an
optional fraction part around at most one decimal point, at least one of
them non-empty; anything else (in particular two or more points, as in
`1.25.75`) fails.  The decimal value `ip.fp` is produced through `mkRat`
(numerator `ip * 10 ^ |fp| + fp` over denominator `10 ^ |fp|`), which is
exactly `(ip : ℚ) + (fp : ℚ) / 10 ^ |fp|`; see `parseDecimal_frac_val`. -/
def parseDecimal (cs : List Char) : Option ℚ :=
  match List.splitOn '.' cs with
  | [ip] =>
    if !ip.isEmpty && ip.all Char.isDigit then some (mkRat (digitsVal ip) 1)
    else none
  | [ip, fp] =>
    if (!ip.isEmpty || !fp.isEmpty) && ip.all Char.isDigit && fp.all Char.isDigit then
      some (mkRat (digitsVal ip * 10 ^ fp.length + digitsVal fp) (10 ^ fp.length))
    else none
  | _ => none

/-- The two-part value built by `parseDecimal` is the usual decimal value
of an integer part and a fraction part. -/
theorem parseDecimal_frac_val (i f k : ℕ) :
    (mkRat (i * 10 ^ k + f) (10 ^ k) : ℚ) = (i : ℚ) + (f : ℚ) / 10 ^ k := by
  rw [Rat.mkRat_eq_div]
  push_cast
  have h10 : ((10 : ℚ) ^ k) ≠ 0 := by positivity
  field_simp

/-- The source's for-loop over regex captures: parse each substituted
token (a parse failure is the fatal `unwrap` panic, modelled as `none`)
and keep the largest value seen, starting from the initial `length = 0.0`. -/
def lengthLoop : List (List Char) → ℚ → Option ℚ
  | [], acc => some acc
  | t :: ts, acc =>
    match parseDecimal (substituteTok t) with
    | none => none
    | some tmp => lengthLoop ts (if acc < tmp then tmp else acc)

/-- Walk length decoded from a description string. -/
def computeLength (s : String) : Option ℚ :=
  lengthLoop (scanTokens s.data) 0

/-- The description string stored in the record: the placemark's
description when present, else the initial empty string. -/
def descOrEmpty (o : Option String) : String :=
  match o with
  | some d => d
  | none => ""

/-- The length field produced by the description match of the source:
no description leaves the initial `0.0`; a description runs the regex
loop, whose parse failure is fatal. -/
def descLength (o : Option String) : Option ℚ :=
  match o with
  | some d => computeLength d
  | none => some 0

/-- The placemark arm of `parse_fancy_free_walks_map`.  `dist` is the
external geodesic library (`Location::distance_to` in metres) applied to
the home pair and the walk-start pair; `none` models the panics of
`placemark.name.unwrap()` and `len.parse::<f64>().unwrap()`. -/
def decodePlacemark (dist : ℚ → ℚ → ℚ → ℚ → ℚ) (p : Placemark) : Option Walk :=
  match p.name with
  | none => none
  | some n =>
    match descLength p.description with
    | none => none
    | some len =>
      match p.geometry with
      | some (Geometry.point x y) =>
        some ⟨n, descOrEmpty p.description, len, y, x,
          ((rustRound (dist homeLatitude homeLongitude y x * mileFactor) : ℚ) / 10)⟩
      | _ => some ⟨n, descOrEmpty p.description, len, 0, 0, 0⟩

/-- The placemark arm of `parse_fancy_free_walks_map` with the fallible
geodesic call modelled: `Location::distance_to` returns a `Result`
(Vincenty's inverse formula can fail to converge, e.g. for near-antipodal
coordinate pairs) and the source unwraps it, so a library error on a
single-point geometry is a further panic site of the decoder, modelled by
`dist` returning `none`.  `decodePlacemark` is this decoder under the
assumption that the library call always succeeds
(`decodePlacemarkF_total`). -/
def decodePlacemarkF (dist : ℚ → ℚ → ℚ → ℚ → Option ℚ) (p : Placemark) : Option Walk :=
  match p.name with
  | none => none
  | some n =>
    match descLength p.description with
    | none => none
    | some len =>
      match p.geometry with
      | some (Geometry.point x y) =>
        match dist homeLatitude homeLongitude y x with
        | none => none
        | some m =>
          some ⟨n, descOrEmpty p.description, len, y, x,
            ((rustRound (m * mileFactor) : ℚ) / 10)⟩
      | _ => some ⟨n, descOrEmpty p.description, len, 0, 0, 0⟩

mutual

/-- `parse_fancy_free_walks_map`: the recursive walk over one element. -/
def walkKml (dist : ℚ → ℚ → ℚ → ℚ → ℚ) : Kml → Option (List Walk)
  | Kml.KmlDocument els => walkList dist els
  | Kml.Document els => walkList dist els
  | Kml.Folder els => walkList dist els
  | Kml.Element => some []
  | Kml.Style => some []
  | Kml.StyleMap => some []
  | Kml.Placemark p =>
    match decodePlacemark dist p with
    | none => none
    | some w => some [w]
  | Kml.Other => some []

/-- The child loop of the container arms: results of the children
appended in child order, any child panic aborting the whole walk. -/
def walkList (dist : ℚ → ℚ → ℚ → ℚ → ℚ) : List Kml → Option (List Walk)
  | [] => some []
  | k :: ks =>
    match walkKml dist k with
    | none => none
    | some ws =>
      match walkList dist ks with
      | none => none
      | some rest => some (ws ++ rest)

end

mutual

/-- The placemark nodes reachable by the walk, in traversal order. -/
def placemarksOf : Kml → List Placemark
  | Kml.KmlDocument els => placemarksOfList els
  | Kml.Document els => placemarksOfList els
  | Kml.Folder els => placemarksOfList els
  | Kml.Element => []
  | Kml.Style => []
  | Kml.StyleMap => []
  | Kml.Placemark p => [p]
  | Kml.Other => []

/-- Placemarks of a child list, in child order. -/
def placemarksOfList : List Kml → List Placemark
  | [] => []
  | k :: ks => placemarksOf k ++ placemarksOfList ks

end

/-- The sort key relation of `walks.sort_by(|a, b| a.distance.partial_cmp(&b.distance).unwrap())`. -/
def wle (a b : Walk) : Prop :=
  a.distance ≤ b.distance

instance : DecidableRel wle :=
  fun a b => inferInstanceAs (Decidable (a.distance ≤ b.distance))

instance : IsTotal Walk wle :=
  ⟨fun a b => le_total a.distance b.distance⟩

instance : IsTrans Walk wle :=
  ⟨fun _ _ _ h1 h2 => le_trans h1 h2⟩

/-- Rust's stable `sort_by` on the distance key, modelled as insertion
sort (which is stable: an earlier element is inserted in front of the
equal later ones). -/
def sortWalks (l : List Walk) : List Walk :=
  List.insertionSort wle l

/-- `main` after loading: walk the root element, then sort by distance. -/
def pipeline (dist : ℚ → ℚ → ℚ → ℚ → ℚ) (root : Kml) : Option (List Walk) :=
  match walkKml dist root with
  | none => none
  | some ws => some (sortWalks ws)

/-- A trivial stand-in for the external distance library, used in
concrete inputs. -/
def zeroDist : ℚ → ℚ → ℚ → ℚ → ℚ :=
  fun _ _ _ _ => 0

/-! ### Helper lemmas about the length loop -/

theorem if_lt_eq_max (a b : ℚ) : (if a < b then b else a) = max a b := by
  rcases lt_or_le a b with h | h
  · rw [if_pos h, max_eq_right (le_of_lt h)]
  · rw [if_neg (not_lt_of_le h), max_eq_left h]

theorem foldl_max_le_self (vals : List ℚ) : ∀ acc : ℚ, acc ≤ vals.foldl max acc := by
  induction vals with
  | nil => intro acc; exact le_refl acc
  | cons v vals ih =>
    intro acc
    exact le_trans (le_max_left acc v) (ih (max acc v))

theorem foldl_max_mem (vals : List ℚ) :
    ∀ acc : ℚ, vals.foldl max acc = acc ∨ vals.foldl max acc ∈ vals := by
  induction vals with
  | nil => intro acc; exact Or.inl rfl
  | cons v vals ih =>
    intro acc
    rcases ih (max acc v) with h | h
    · rcases max_cases acc v with ⟨he, _⟩ | ⟨he, _⟩
      · exact Or.inl (by rw [List.foldl_cons, h, he])
      · exact Or.inr (by rw [List.foldl_cons, h, he]; exact List.mem_cons_self v vals)
    · exact Or.inr (List.mem_cons_of_mem v h)

theorem foldl_max_bound (vals : List ℚ) :
    ∀ acc : ℚ, ∀ v ∈ vals, v ≤ vals.foldl max acc := by
  induction vals with
  | nil => intro acc v hv; cases hv
  | cons u vals ih =>
    intro acc v hv
    rcases List.mem_cons.mp hv with rfl | hv
    · exact le_trans (le_max_right acc v) (foldl_max_le_self vals (max acc v))
    · exact ih (max acc u) v hv

theorem lengthLoop_some (ts : List (List Char)) :
    ∀ acc q : ℚ, lengthLoop ts acc = some q →
      ∃ vals, List.mapM (fun t => parseDecimal (substituteTok t)) ts = some vals ∧
        q = vals.foldl max acc := by
  induction ts with
  | nil =>
    intro acc q h
    refine ⟨[], rfl, ?_⟩
    simpa [lengthLoop] using h.symm
  | cons t ts ih =>
    intro acc q h
    rw [lengthLoop] at h
    cases hp : parseDecimal (substituteTok t) with
    | none => rw [hp] at h; cases h
    | some v =>
      rw [hp] at h
      obtain ⟨vals, hm, hq⟩ := ih _ _ h
      refine ⟨v :: vals, ?_, ?_⟩
      · rw [List.mapM_cons, hp, hm]; rfl
      · rw [List.foldl_cons, ← if_lt_eq_max, hq]

theorem mapM_option_length {α β : Type} (f : α → Option β) :
    ∀ (xs : List α) (ys : List β), List.mapM f xs = some ys → ys.length = xs.length := by
  intro xs
  induction xs with
  | nil =>
    intro ys h
    rw [List.mapM_nil] at h
    obtain rfl : ([] : List β) = ys := by simpa using h
    rfl
  | cons x xs ih =>
    intro ys h
    rw [List.mapM_cons] at h
    cases hx : f x with
    | none => rw [hx] at h; simp at h
    | some y =>
      rw [hx] at h
      cases hm : List.mapM f xs with
      | none => rw [hm] at h; simp at h
      | some zs =>
        rw [hm] at h
        obtain rfl : y :: zs = ys := by simpa using h
        simp [ih zs hm]

theorem mapM_option_mem {α β : Type} (f : α → Option β) :
    ∀ (xs : List α) (ys : List β), List.mapM f xs = some ys →
      ∀ y ∈ ys, ∃ x ∈ xs, f x = some y := by
  intro xs
  induction xs with
  | nil =>
    intro ys h y hy
    rw [List.mapM_nil] at h
    obtain rfl : ([] : List β) = ys := by simpa using h
    cases hy
  | cons x xs ih =>
    intro ys h y hy
    rw [List.mapM_cons] at h
    cases hx : f x with
    | none => rw [hx] at h; simp at h
    | some z =>
      rw [hx] at h
      cases hm : List.mapM f xs with
      | none => rw [hm] at h; simp at h
      | some zs =>
        rw [hm] at h
        obtain rfl : z :: zs = ys := by simpa using h
        rcases List.mem_cons.mp hy with rfl | hy
        · exact ⟨x, List.mem_cons_self _ _, hx⟩
        · obtain ⟨x1, hx1, hfx1⟩ := ih zs hm y hy
          exact ⟨x1, List.mem_cons_of_mem _ hx1, hfx1⟩

theorem parseDecimal_nonneg (cs : List Char) (q : ℚ) (h : parseDecimal cs = some q) :
    0 ≤ q := by
  rw [parseDecimal] at h
  split at h
  · split at h
    · obtain rfl : mkRat _ 1 = q := by simpa using h
      rw [Rat.mkRat_eq_div]
      positivity
    · cases h
  · split at h
    · obtain rfl : mkRat _ _ = q := by simpa using h
      rw [Rat.mkRat_eq_div]
      positivity
    · cases h
  · cases h

/-- The length loop computes the maximum of the parsed token values, `0`
when there is no token. -/
theorem computeLength_spec (d : String) (q : ℚ) (h : computeLength d = some q) :
    ∃ vals, List.mapM (fun t => parseDecimal (substituteTok t)) (scanTokens d.data) =
        some vals ∧
      (vals = [] → q = 0) ∧ (vals ≠ [] → q ∈ vals ∧ ∀ v ∈ vals, v ≤ q) := by
  rw [computeLength] at h
  obtain ⟨vals, hm, hq⟩ := lengthLoop_some _ _ _ h
  refine ⟨vals, hm, ?_, ?_⟩
  · rintro rfl; simpa using hq
  · intro hne
    have hnonneg : ∀ v ∈ vals, 0 ≤ v := by
      intro v hv
      obtain ⟨t, _, hpt⟩ := mapM_option_mem _ _ _ hm v hv
      exact parseDecimal_nonneg _ _ hpt
    constructor
    · rcases foldl_max_mem vals 0 with h0 | hmem
      · obtain ⟨v0, hv0⟩ := List.exists_mem_of_ne_nil vals hne
        have hle : v0 ≤ q := by rw [hq]; exact foldl_max_bound vals 0 v0 hv0
        have hq0 : q = 0 := by rw [hq, h0]
        have hv0q : v0 = q := le_antisymm hle (by rw [hq0]; exact hnonneg v0 hv0)
        exact hv0q ▸ hv0
      · rw [hq]; exact hmem
    · intro v hv
      rw [hq]
      exact foldl_max_bound vals 0 v hv

/-! ### Helper lemmas about the placemark decoder -/

theorem decodePlacemark_none_iff (dist : ℚ → ℚ → ℚ → ℚ → ℚ) (p : Placemark) :
    decodePlacemark dist p = none ↔
      p.name = none ∨ descLength p.description = none := by
  cases hn : p.name with
  | none => simp [decodePlacemark, hn]
  | some n =>
    cases hd : descLength p.description with
    | none => simp [decodePlacemark, hn, hd]
    | some len =>
      cases hg : p.geometry with
      | none => simp [decodePlacemark, hn, hd, hg]
      | some g => cases g <;> simp [decodePlacemark, hn, hd, hg]

theorem decodePlacemark_fields (dist : ℚ → ℚ → ℚ → ℚ → ℚ) (p : Placemark) (w : Walk)
    (h : decodePlacemark dist p = some w) :
    p.name = some w.name ∧ w.description = descOrEmpty p.description ∧
      descLength p.description = some w.length := by
  cases hn : p.name with
  | none => rw [decodePlacemark, hn] at h; cases h
  | some n =>
    rw [decodePlacemark, hn] at h
    cases hd : descLength p.description with
    | none => rw [hd] at h; cases h
    | some len =>
      rw [hd] at h
      cases hg : p.geometry with
      | none =>
        rw [hg] at h
        obtain rfl : (⟨n, descOrEmpty p.description, len, 0, 0, 0⟩ : Walk) = w := by
          simpa using h
        exact ⟨rfl, rfl, rfl⟩
      | some g =>
        rw [hg] at h
        cases g with
        | point x y =>
          obtain rfl : (⟨n, descOrEmpty p.description, len, y, x,
              ((rustRound (dist homeLatitude homeLongitude y x * mileFactor) : ℚ) / 10)⟩ :
              Walk) = w := by simpa using h
          exact ⟨rfl, rfl, rfl⟩
        | otherGeom =>
          obtain rfl : (⟨n, descOrEmpty p.description, len, 0, 0, 0⟩ : Walk) = w := by
            simpa using h
          exact ⟨rfl, rfl, rfl⟩

theorem decodePlacemark_nonpoint (dist : ℚ → ℚ → ℚ → ℚ → ℚ) (p : Placemark) (w : Walk)
    (hg : p.geometry = none ∨ p.geometry = some Geometry.otherGeom)
    (h : decodePlacemark dist p = some w) :
    w.latitude = 0 ∧ w.longitude = 0 ∧ w.distance = 0 := by
  cases hn : p.name with
  | none => rw [decodePlacemark, hn] at h; cases h
  | some n =>
    rw [decodePlacemark, hn] at h
    cases hd : descLength p.description with
    | none => rw [hd] at h; cases h
    | some len =>
      rw [hd] at h
      rcases hg with hg | hg <;>
        · rw [hg] at h
          obtain rfl : (⟨n, descOrEmpty p.description, len, 0, 0, 0⟩ : Walk) = w := by
            simpa using h
          exact ⟨rfl, rfl, rfl⟩

theorem decodePlacemark_point (dist : ℚ → ℚ → ℚ → ℚ → ℚ) (p : Placemark) (w : Walk)
    (x y : ℚ) (hg : p.geometry = some (Geometry.point x y))
    (h : decodePlacemark dist p = some w) :
    w.latitude = y ∧ w.longitude = x ∧
      w.distance =
        (rustRound (dist homeLatitude homeLongitude y x * mileFactor) : ℚ) / 10 := by
  cases hn : p.name with
  | none => rw [decodePlacemark, hn] at h; cases h
  | some n =>
    rw [decodePlacemark, hn] at h
    cases hd : descLength p.description with
    | none => rw [hd] at h; cases h
    | some len =>
      rw [hd, hg] at h
      obtain rfl : (⟨n, descOrEmpty p.description, len, y, x,
          ((rustRound (dist homeLatitude homeLongitude y x * mileFactor) : ℚ) / 10)⟩ :
          Walk) = w := by simpa using h
      exact ⟨rfl, rfl, rfl⟩

/-! ### Helper lemmas about the tree walk -/

/-- The child loop is the concatenation (in child order) of the child
results, failing when any child fails. -/
theorem walkList_concat (dist : ℚ → ℚ → ℚ → ℚ → ℚ) :
    ∀ els, walkList dist els =
      Option.map (fun ls => ls.flatten) (List.mapM (walkKml dist) els) := by
  intro els
  induction els with
  | nil => rfl
  | cons k ks ih =>
    rw [walkList, List.mapM_cons, ih]
    cases h1 : walkKml dist k <;>
      cases h2 : List.mapM (walkKml dist) ks <;>
        simp

theorem mapM_option_singleton {α β : Type} (f : α → Option β) (x : α) :
    List.mapM f [x] =
      match f x with
      | none => none
      | some y => some [y] := by
  rw [List.mapM_cons]
  cases f x <;> rfl

/-- The whole walk is `mapM` of the placemark decoder over the placemark
leaves in traversal order (list version). -/
theorem walkList_eq_mapM (dist : ℚ → ℚ → ℚ → ℚ → ℚ) :
    ∀ ls, walkList dist ls = List.mapM (decodePlacemark dist) (placemarksOfList ls) := by
  refine walkList.induct dist
    (fun t => walkKml dist t = List.mapM (decodePlacemark dist) (placemarksOf t))
    (fun ls => walkList dist ls = List.mapM (decodePlacemark dist) (placemarksOfList ls))
    ?_ ?_ ?_ ?_ ?_ ?_ ?_ ?_ ?_ ?_ ?_ ?_ ?_
  · intro els h; simpa [walkKml, placemarksOf] using h
  · intro els h; simpa [walkKml, placemarksOf] using h
  · intro els h; simpa [walkKml, placemarksOf] using h
  · rfl
  · rfl
  · rfl
  · intro p hp
    rw [walkKml, placemarksOf, mapM_option_singleton, hp]
  · intro p w hp
    rw [walkKml, placemarksOf, mapM_option_singleton, hp]
  · rfl
  · rfl
  · intro k ks hk m1
    rw [walkList, placemarksOfList, List.mapM_append, ← m1, hk]
    simp
  · intro k ks rest hk hks m1 m2
    rw [walkList, placemarksOfList, List.mapM_append, ← m1, ← m2, hk, hks]
    simp
  · intro k ks rest hk rest2 hks m1 m2
    rw [walkList, placemarksOfList, List.mapM_append, ← m1, ← m2, hk, hks]
    simp

/-- The whole walk is `mapM` of the placemark decoder over the placemark
leaves in traversal order. -/
theorem walkKml_eq_mapM (dist : ℚ → ℚ → ℚ → ℚ → ℚ) (t : Kml) :
    walkKml dist t = List.mapM (decodePlacemark dist) (placemarksOf t) := by
  cases t with
  | KmlDocument els => rw [walkKml, placemarksOf]; exact walkList_eq_mapM dist els
  | Document els => rw [walkKml, placemarksOf]; exact walkList_eq_mapM dist els
  | Folder els => rw [walkKml, placemarksOf]; exact walkList_eq_mapM dist els
  | Element => rfl
  | Style => rfl
  | StyleMap => rfl
  | Placemark p =>
    cases hp : decodePlacemark dist p <;>
      rw [walkKml, placemarksOf, mapM_option_singleton, hp]
  | Other => rfl

/-! ### Helper lemmas about the stable sort -/

theorem filter_orderedInsert_pos (p : Walk → Bool) (w : Walk) (hw : p w = true) :
    ∀ l : List Walk, (∀ y ∈ l, p y = true → wle w y) →
      (List.orderedInsert wle w l).filter p = w :: l.filter p := by
  intro l
  induction l with
  | nil => intro _; simp [List.orderedInsert, hw]
  | cons y l ih =>
    intro hall
    rw [List.orderedInsert]
    by_cases h1 : wle w y
    · rw [if_pos h1, List.filter_cons, List.filter_cons]
      simp [hw]
    · rw [if_neg h1]
      have hy : p y = false := by
        cases hpy : p y with
        | false => rfl
        | true => exact absurd (hall y (List.mem_cons_self _ _) hpy) h1
      rw [List.filter_cons, if_neg (by simp [hy]), List.filter_cons, if_neg (by simp [hy])]
      exact ih (fun z hz hpz => hall z (List.mem_cons_of_mem _ hz) hpz)

theorem filter_orderedInsert_neg (p : Walk → Bool) (w : Walk) (hw : p w = false) :
    ∀ l : List Walk, (List.orderedInsert wle w l).filter p = l.filter p := by
  intro l
  induction l with
  | nil => simp [List.orderedInsert, hw]
  | cons y l ih =>
    rw [List.orderedInsert]
    by_cases h1 : wle w y
    · rw [if_pos h1, List.filter_cons, if_neg (by simp [hw])]
    · rw [if_neg h1, List.filter_cons, List.filter_cons]
      rw [ih]

/-- Stability of the modelled sort, as preservation of every
equal-distance fibre: the records at any given distance appear in the
output exactly as they appear in the input. -/
theorem sortWalks_stable (d : ℚ) (l : List Walk) :
    (sortWalks l).filter (fun w => w.distance = d) =
      l.filter (fun w => w.distance = d) := by
  induction l with
  | nil => rfl
  | cons a l ih =>
    rw [sortWalks, List.insertionSort] at *
    by_cases ha : a.distance = d
    · rw [filter_orderedInsert_pos _ a (by simp [ha]) _ ?_, ih, List.filter_cons,
        if_pos (by simp [ha])]
      intro y _ hy
      have : y.distance = d := by simpa using hy
      exact le_of_eq (by rw [ha, this])
    · rw [filter_orderedInsert_neg _ a (by simp [ha]), ih, List.filter_cons,
        if_neg (by simp [ha])]

theorem sortWalks_perm (l : List Walk) : (sortWalks l).Perm l :=
  List.perm_insertionSort wle l

theorem sortWalks_sorted (l : List Walk) : List.Sorted wle (sortWalks l) :=
  List.sorted_insertionSort wle l

/-! ### Additional helper facts -/

theorem rustRound_zero : rustRound 0 = 0 := by
  rw [rustRound, if_pos (le_refl (0 : ℚ)), zero_add]
  rw [show ((1 : ℚ) / 2) = (2 : ℚ)⁻¹ by norm_num]
  rw [show ((2 : ℚ)⁻¹) = ((2 : ℚ)⁻¹ : ℚ) from rfl]
  norm_num [Int.floor_eq_iff]

theorem mileFactor_eq : mileFactor = milesPerMeter * 10 := by
  norm_num [mileFactor, milesPerMeter]

/-! ### Concrete inputs used by witnesses and counterexamples -/

/-- A placemark whose name is present but empty. -/
def cexTree : Kml :=
  Kml.KmlDocument [Kml.Placemark ⟨some (""), none, none⟩]

/-- The record the pipeline produces for `cexTree`. -/
def cexWalk : Walk :=
  ⟨"", "", 0, 0, 0, 0⟩

/-- A placemark with a point geometry, used to witness the distance claim. -/
def pmPoint : Placemark :=
  ⟨some ("start"), none, some (Geometry.point 1 2)⟩

/-- The record decoded from `pmPoint` (with the `zeroDist` library stub). -/
def pmPointWalk : Walk :=
  ⟨"start", "", 0, 2, 1, 0⟩

/-- A placemark with a two-number description. -/
def pmDesc : Placemark :=
  ⟨some ("w"), some ("a 4 mile walk, or 6 with the detour"), none⟩

/-- The record decoded from `pmDesc`. -/
def pmDescWalk : Walk :=
  ⟨"w", "a 4 mile walk, or 6 with the detour", 6, 0, 0, 0⟩

/-- Record A of the sort-stability example: distance 5. -/
def exA : Walk := ⟨"A", "", 0, 0, 0, 5⟩

/-- Record B of the sort-stability example: distance 2, before C. -/
def exB : Walk := ⟨"B", "", 0, 0, 0, 2⟩

/-- Record C of the sort-stability example: distance 2, after B. -/
def exC : Walk := ⟨"C", "", 0, 0, 0, 2⟩

/-- The traversal-completeness example tree: a folder containing a
sub-folder with two placemarks, plus one placemark at top level. -/
def exTree6 : Kml :=
  Kml.KmlDocument
    [Kml.Folder [Kml.Folder [Kml.Placemark ⟨some ("a"), none, none⟩,
      Kml.Placemark ⟨some ("b"), none, none⟩]],
     Kml.Placemark ⟨some ("c"), none, none⟩]

/-- The records the walk produces for `exTree6`. -/
def exTree6Walks : List Walk :=
  [⟨"a", "", 0, 0, 0, 0⟩, ⟨"b", "", 0, 0, 0, 0⟩, ⟨"c", "", 0, 0, 0, 0⟩]

/-- A placemark with no description. -/
def pmNoDesc : Placemark :=
  ⟨some ("n"), none, none⟩

/-- The record decoded from `pmNoDesc`. -/
def pmNoDescWalk : Walk :=
  ⟨"n", "", 0, 0, 0, 0⟩

/-- A placemark with a non-point geometry and a description. -/
def pmPoly : Placemark :=
  ⟨some ("p"), some ("3 miles"), some Geometry.otherGeom⟩

/-- The record decoded from `pmPoly`. -/
def pmPolyWalk : Walk :=
  ⟨"p", "3 miles", 3, 0, 0, 0⟩

/-! ### The claims -/

/-- Claim C1: for every placemark with a description, when decoding
succeeds the record's `length` is the maximum of the decimal values
parsed (after glyph substitution) from the tokens the pattern matches in
the description, and `0` when no token matches. -/
theorem claim1_length_is_max (dist : ℚ → ℚ → ℚ → ℚ → ℚ) (p : Placemark) (d : String)
    (w : Walk) (hd : p.description = some d) (hw : decodePlacemark dist p = some w) :
    ∃ vals, List.mapM (fun t => parseDecimal (substituteTok t)) (scanTokens d.data) =
        some vals ∧
      (vals = [] → w.length = 0) ∧
      (vals ≠ [] → w.length ∈ vals ∧ ∀ v ∈ vals, v ≤ w.length) := by
  obtain ⟨-, -, hlen⟩ := decodePlacemark_fields dist p w hw
  rw [hd] at hlen
  have hcl : computeLength d = some w.length := by simpa [descLength] using hlen
  obtain ⟨vals, hm, h0, hmax⟩ := computeLength_spec d w.length hcl
  exact ⟨vals, hm, h0, hmax⟩

/-- Witness for C1 at `pmDesc`: description has tokens 4 and 6, length 6. -/
theorem claim1_witness :
    pmDesc.description = some ("a 4 mile walk, or 6 with the detour") ∧
    decodePlacemark zeroDist pmDesc = some pmDescWalk ∧
    (∃ vals,
      List.mapM (fun t => parseDecimal (substituteTok t))
        (scanTokens ("a 4 mile walk, or 6 with the detour").data) = some vals ∧
      (vals = [] → pmDescWalk.length = 0) ∧
      (vals ≠ [] → pmDescWalk.length ∈ vals ∧ ∀ v ∈ vals, v ≤ pmDescWalk.length)) :=
  ⟨rfl, by decide,
    claim1_length_is_max zeroDist pmDesc ("a 4 mile walk, or 6 with the detour")
      pmDescWalk rfl (by decide)⟩

/-- Claim C2: fraction-glyph substitution: `3¼` gives length 3.25, `2½`
gives 2.50, `5¾` gives 5.75; the substitutions are applied in the fixed
order ¼, ½, ¾, each replacing all occurrences, so the token `1¼¾` becomes
the literal string `1.25.75`, its numeric parse fails, and the failure
aborts the whole walk with no fallback. -/
theorem claim2_fraction_substitution :
    computeLength ("3¼ miles") = some (3.25 : ℚ) ∧
    computeLength ("2½") = some (2.50 : ℚ) ∧
    computeLength ("5¾") = some (5.75 : ℚ) ∧
    substituteTok ("1¼¾").data = ("1.25.75").data ∧
    parseDecimal (("1.25.75").data) = none ∧
    computeLength ("1¼¾") = none ∧
    walkKml zeroDist
      (Kml.KmlDocument [Kml.Placemark ⟨some ("x"), some ("1¼¾"), none⟩]) = none := by
  refine ⟨?_, ?_, ?_, by decide, by decide, by decide, by decide⟩
  · have h : computeLength ("3¼ miles") = some (mkRat 13 4) := by decide
    rw [h]
    norm_num [Rat.mkRat_eq_div]
  · have h : computeLength ("2½") = some (mkRat 5 2) := by decide
    rw [h]
    norm_num [Rat.mkRat_eq_div]
  · have h : computeLength ("5¾") = some (mkRat 23 4) := by decide
    rw [h]
    norm_num [Rat.mkRat_eq_div]

/-- Claim C3: for a placemark with a single-point geometry the record's
`distance` is the external great-circle metre distance from the home
coordinate to the point, converted to miles and rounded to one decimal
place with round(x*10)/10 semantics; a walk point equal to the home
coordinate (where the great-circle distance is 0) gives distance 0. -/
theorem claim3_distance_rounding (dist : ℚ → ℚ → ℚ → ℚ → ℚ) (p : Placemark) (x y : ℚ)
    (w : Walk) (hg : p.geometry = some (Geometry.point x y))
    (hw : decodePlacemark dist p = some w) :
    w.distance =
      (rustRound (dist homeLatitude homeLongitude y x * milesPerMeter * 10) : ℚ) / 10 ∧
    (dist homeLatitude homeLongitude y x = 0 → w.distance = 0) := by
  obtain ⟨-, -, hdist⟩ := decodePlacemark_point dist p w x y hg hw
  constructor
  · rw [hdist, mileFactor_eq, mul_assoc]
  · intro h0
    rw [hdist, h0, zero_mul, rustRound_zero]
    norm_num

/-- Witness for C3 at `pmPoint` with the `zeroDist` library stub (whose
metre distance is 0 everywhere, in particular at the home coordinate). -/
theorem claim3_witness :
    pmPoint.geometry = some (Geometry.point 1 2) ∧
    decodePlacemark zeroDist pmPoint = some pmPointWalk ∧
    (pmPointWalk.distance =
      (rustRound (zeroDist homeLatitude homeLongitude 2 1 * milesPerMeter * 10) : ℚ) / 10 ∧
    (zeroDist homeLatitude homeLongitude 2 1 = 0 → pmPointWalk.distance = 0)) :=
  ⟨rfl, by simp [decodePlacemark, pmPoint, pmPointWalk, descLength, descOrEmpty,
      zeroDist, rustRound_zero],
    claim3_distance_rounding zeroDist pmPoint 1 2 pmPointWalk rfl
      (by simp [decodePlacemark, pmPoint, pmPointWalk, descLength, descOrEmpty,
        zeroDist, rustRound_zero])⟩

/-- Counterexample to C4 as stated: the decoder only requires the name to
be present, not non-empty, so a placemark named by the empty string
produces a final output record whose `name` is `""`. -/
theorem claim4_counterexample :
    ∃ l, pipeline zeroDist cexTree = some l ∧ ∃ w ∈ l, w.name = "" := by
  refine ⟨[cexWalk], by decide, cexWalk, by decide, rfl⟩

/-- Claim C4 (amended): every record in the final output list carries the
name of a placemark of the tree whose name field was present (decoding
fails when it is absent); the name string itself may be empty. -/
theorem claim4_name_present (dist : ℚ → ℚ → ℚ → ℚ → ℚ) (t : Kml) (l : List Walk)
    (h : pipeline dist t = some l) :
    ∀ w ∈ l, ∃ p, p ∈ placemarksOf t ∧ p.name = some w.name := by
  rw [pipeline] at h
  cases hwk : walkKml dist t with
  | none => rw [hwk] at h; cases h
  | some l0 =>
    rw [hwk] at h
    obtain rfl : sortWalks l0 = l := by simpa using h
    intro w hw
    have hw0 : w ∈ l0 := (sortWalks_perm l0).mem_iff.mp hw
    rw [walkKml_eq_mapM] at hwk
    obtain ⟨p, hp, hdec⟩ := mapM_option_mem _ _ _ hwk w hw0
    exact ⟨p, hp, (decodePlacemark_fields dist p w hdec).1⟩

/-- Witness for the amended C4 at `cexTree`. -/
theorem claim4_witness :
    pipeline zeroDist cexTree = some [cexWalk] ∧
    ∀ w ∈ [cexWalk], ∃ p, p ∈ placemarksOf cexTree ∧ p.name = some w.name :=
  ⟨by decide, claim4_name_present zeroDist cexTree [cexWalk] (by decide)⟩

/-- Claim C5: the final list is the stable sort by `distance` of the
traversal-order list: the pipeline sorts the walked records; the sort is
a permutation, is sorted by `distance` non-decreasing, preserves every
equal-distance fibre in input order (stability, no secondary key), and
the spec's example [A 5.0, B 2.0, C 2.0] sorts to [B, C, A]. -/
theorem claim5_stable_sort :
    (∀ (dist : ℚ → ℚ → ℚ → ℚ → ℚ) (t : Kml) (l0 : List Walk),
      walkKml dist t = some l0 → pipeline dist t = some (sortWalks l0)) ∧
    (∀ l : List Walk, (sortWalks l).Perm l) ∧
    (∀ l : List Walk, List.Sorted wle (sortWalks l)) ∧
    (∀ (l : List Walk) (d : ℚ),
      (sortWalks l).filter (fun w => w.distance = d) =
        l.filter (fun w => w.distance = d)) ∧
    sortWalks [exA, exB, exC] = [exB, exC, exA] := by
  refine ⟨?_, sortWalks_perm, sortWalks_sorted, fun l d => sortWalks_stable d l, by decide⟩
  intro dist t l0 h
  simp [pipeline, h]

/-- Witness for C5: the pipeline conjunct applied at a concrete tree. -/
theorem claim5_witness :
    pipeline zeroDist exTree6 = some (sortWalks exTree6Walks) :=
  claim5_stable_sort.1 zeroDist exTree6 exTree6Walks (by decide)

/-- Claim C6: container nodes (KML document root, document, folder)
concatenate their children's records in child order, a placemark leaf
yields exactly its one decoded record, ignored and unrecognized node
kinds yield no records and never abort the walk, and a successful walk
yields exactly one record per placemark of the tree, in document order. -/
theorem claim6_tree_walk (dist : ℚ → ℚ → ℚ → ℚ → ℚ) :
    (∀ els, walkKml dist (Kml.KmlDocument els) =
      Option.map (fun ls => ls.flatten) (List.mapM (walkKml dist) els)) ∧
    (∀ els, walkKml dist (Kml.Document els) =
      Option.map (fun ls => ls.flatten) (List.mapM (walkKml dist) els)) ∧
    (∀ els, walkKml dist (Kml.Folder els) =
      Option.map (fun ls => ls.flatten) (List.mapM (walkKml dist) els)) ∧
    (∀ p, walkKml dist (Kml.Placemark p) =
      Option.map (fun w => [w]) (decodePlacemark dist p)) ∧
    walkKml dist Kml.Element = some [] ∧
    walkKml dist Kml.Style = some [] ∧
    walkKml dist Kml.StyleMap = some [] ∧
    walkKml dist Kml.Other = some [] ∧
    (∀ t l, walkKml dist t = some l → l.length = (placemarksOf t).length) := by
  refine ⟨?_, ?_, ?_, ?_, rfl, rfl, rfl, rfl, ?_⟩
  · intro els; rw [walkKml]; exact walkList_concat dist els
  · intro els; rw [walkKml]; exact walkList_concat dist els
  · intro els; rw [walkKml]; exact walkList_concat dist els
  · intro p
    cases hp : decodePlacemark dist p <;> rw [walkKml, hp] <;> rfl
  · intro t l h
    rw [walkKml_eq_mapM] at h
    exact mapM_option_length _ _ _ h

/-- Witness for C6: the nested-folders example tree yields exactly its
three placemark records. -/
theorem claim6_witness :
    walkKml zeroDist exTree6 = some exTree6Walks ∧
    exTree6Walks.length = (placemarksOf exTree6).length :=
  ⟨by decide,
    (claim6_tree_walk zeroDist).2.2.2.2.2.2.2.2 exTree6 exTree6Walks (by decide)⟩

/-- When the geodesic library succeeds everywhere, the fallible decoder
is exactly the total-library decoder used by the other claims. -/
theorem decodePlacemarkF_total (dist : ℚ → ℚ → ℚ → ℚ → ℚ) (p : Placemark) :
    decodePlacemarkF (fun a b c d => some (dist a b c d)) p = decodePlacemark dist p := by
  cases hn : p.name with
  | none => simp [decodePlacemarkF, decodePlacemark, hn]
  | some n =>
    cases hd : descLength p.description with
    | none => simp [decodePlacemarkF, decodePlacemark, hn, hd]
    | some len =>
      cases hg : p.geometry with
      | none => simp [decodePlacemarkF, decodePlacemark, hn, hd, hg]
      | some g => cases g <;> simp [decodePlacemarkF, decodePlacemark, hn, hd, hg]

/-- Claim C8: a placemark with no description decodes (when it decodes)
to a record with empty description and length 0. -/
theorem claim8_no_description (dist : ℚ → ℚ → ℚ → ℚ → ℚ) (p : Placemark) (w : Walk)
    (hd : p.description = none) (hw : decodePlacemark dist p = some w) :
    w.description = "" ∧ w.length = 0 := by
  obtain ⟨-, hdesc, hlen⟩ := decodePlacemark_fields dist p w hw
  rw [hd] at hdesc hlen
  refine ⟨by rw [hdesc]; rfl, ?_⟩
  have h0 : some (0 : ℚ) = some w.length := hlen
  simpa using h0.symm

/-- Witness for C8 at `pmNoDesc`. -/
theorem claim8_witness :
    pmNoDesc.description = none ∧
    decodePlacemark zeroDist pmNoDesc = some pmNoDescWalk ∧
    (pmNoDescWalk.description = "" ∧ pmNoDescWalk.length = 0) :=
  ⟨rfl, by decide, claim8_no_description zeroDist pmNoDesc pmNoDescWalk rfl (by decide)⟩

/-- Claim C9: a placemark whose geometry is absent or not a single point
keeps latitude, longitude and distance at 0, while its name, description
and length are decoded as usual; the record is not dropped — decoding
still fails only for a missing name or a length-token parse failure. -/
theorem claim9_nonpoint_geometry (dist : ℚ → ℚ → ℚ → ℚ → ℚ) (p : Placemark)
    (hg : p.geometry = none ∨ p.geometry = some Geometry.otherGeom) :
    (decodePlacemark dist p = none ↔
      p.name = none ∨ descLength p.description = none) ∧
    ∀ w, decodePlacemark dist p = some w →
      w.latitude = 0 ∧ w.longitude = 0 ∧ w.distance = 0 ∧
      p.name = some w.name ∧ w.description = descOrEmpty p.description ∧
      descLength p.description = some w.length := by
  refine ⟨decodePlacemark_none_iff dist p, ?_⟩
  intro w hw
  obtain ⟨hlat, hlon, hdist⟩ := decodePlacemark_nonpoint dist p w hg hw
  obtain ⟨hname, hdesc, hlen⟩ := decodePlacemark_fields dist p w hw
  exact ⟨hlat, hlon, hdist, hname, hdesc, hlen⟩

/-- Witness for C9 at `pmPoly` (a non-point geometry with a description). -/
theorem claim9_witness :
    (pmPoly.geometry = none ∨ pmPoly.geometry = some Geometry.otherGeom) ∧
    decodePlacemark zeroDist pmPoly = some pmPolyWalk ∧
    (pmPolyWalk.latitude = 0 ∧ pmPolyWalk.longitude = 0 ∧ pmPolyWalk.distance = 0 ∧
      pmPoly.name = some pmPolyWalk.name ∧
      pmPolyWalk.description = descOrEmpty pmPoly.description ∧
      descLength pmPoly.description = some pmPolyWalk.length) :=
  ⟨Or.inr rfl, by decide,
    (claim9_nonpoint_geometry zeroDist pmPoly (Or.inr rfl)).2 pmPolyWalk (by decide)⟩

end FancyFreeWalks
